import Mathlib

/-!
Verification of the Merit-catchment-extract repository.

The repository delineates a station's contributing watershed from a
river-network topology (`merit_extractor/topology.py`), snaps stations to
reaches (`merit_extractor/gis_utils.py`), merges unit-catchment polygons,
normalizes station metadata (`merit_extractor/io.py`) and orchestrates a
resumable parallel batch (`extract_merit_catchment.py`).

Each Python function relevant to the frozen claims is shallowly embedded
below: pandas/geopandas tables become lists of records, Python sets become
`Finset`, floats become `ℚ`, raised exceptions become `Except`/sum values,
and opaque geometric operations (shapely buffer/union, spatial index) are
abstracted as parameters carrying exactly the information the code reads
from them.
-/

namespace MeritExtract

/-! ## Topology graph and BFS upstream tracer (`topology.py`) -/

/-- The upstream adjacency map `G` built by `build_upstream_graph` is a Python
dict from a reach id to the set of its direct upstream ids; we embed it as an
association list with `Finset` values.  `upstreamOf G c` is `G.get(cur, set())`. -/
def upstreamOf (G : List (Int × Finset Int)) (c : Int) : Finset Int :=
  match G.find? (fun p => p.1 == c) with
  | some p => p.2
  | none => ∅

/-- All ids occurring in some upstream set of `G` (used only as a termination
measure for the BFS loop). -/
def allVals (G : List (Int × Finset Int)) : Finset Int :=
  G.foldr (fun p acc => p.2 ∪ acc) ∅

theorem subset_allVals_of_mem {G : List (Int × Finset Int)} {p : Int × Finset Int}
    (hp : p ∈ G) : p.2 ⊆ allVals G := by
  induction G with
  | nil => cases hp
  | cons q G ih =>
    rcases List.mem_cons.mp hp with h | h
    · subst h
      exact fun x hx => Finset.mem_union.mpr (Or.inl hx)
    · exact fun x hx => Finset.mem_union.mpr (Or.inr (ih h hx))

theorem upstreamOf_subset_allVals (G : List (Int × Finset Int)) (c : Int) :
    upstreamOf G c ⊆ allVals G := by
  unfold upstreamOf
  cases hf : G.find? (fun p => p.1 == c) with
  | none => exact fun x hx => absurd hx (Finset.not_mem_empty x)
  | some p => exact subset_allVals_of_mem (List.mem_of_find?_eq_some hf)

/-- The loop of `bfs_upstream` (`topology.py`, lines 298-312): pop the head of
the queue, push every not-yet-visited direct upstream id, add them to the
visited set. -/
def bfsAux (G : List (Int × Finset Int)) (q : List Int) (visited : Finset Int) :
    Finset Int :=
  match q with
  | [] => visited
  | cur :: rest =>
    let ns := (upstreamOf G cur).filter (fun u => u ∉ visited)
    bfsAux G (rest ++ ns.sort (· ≤ ·)) (visited ∪ ns)
termination_by 2 * (allVals G \ visited).card + q.length
decreasing_by
  show 2 * (allVals G \ (visited ∪ ns)).card + (rest ++ ns.sort (· ≤ ·)).length <
      2 * (allVals G \ visited).card + (cur :: rest).length
  have hsub : ns ⊆ allVals G \ visited := by
    intro x hx
    have hx' := Finset.mem_filter.mp hx
    exact Finset.mem_sdiff.mpr ⟨upstreamOf_subset_allVals G cur hx'.1, hx'.2⟩
  have hsd : allVals G \ (visited ∪ ns) = (allVals G \ visited) \ ns := by
    ext x
    simp only [Finset.mem_sdiff, Finset.mem_union]
    tauto
  have hcard : (allVals G \ (visited ∪ ns)).card = (allVals G \ visited).card - ns.card := by
    rw [hsd]
    exact Finset.card_sdiff hsub
  have hle : ns.card ≤ (allVals G \ visited).card := Finset.card_le_card hsub
  simp only [List.length_append, Finset.length_sort, List.length_cons]
  omega

/-- `bfs_upstream(G, outlet)` from `topology.py`: visited set seeded with the
outlet, queue seeded with the outlet. -/
def bfs_upstream (G : List (Int × Finset Int)) (outlet : Int) : Finset Int :=
  bfsAux G [outlet] {outlet}

/-- One upstream edge of the topology graph: `b` is a direct upstream of `a`. -/
def upstreamStep (G : List (Int × Finset Int)) (a b : Int) : Prop :=
  b ∈ upstreamOf G a

theorem visited_subset_bfsAux (G : List (Int × Finset Int)) (q : List Int)
    (visited : Finset Int) : visited ⊆ bfsAux G q visited := by
  induction q, visited using bfsAux.induct G with
  | case1 visited =>
    rw [bfsAux]
  | case2 visited cur rest ns =>
    rename_i ih
    rw [bfsAux]
    exact fun x hx => ih (Finset.mem_union.mpr (Or.inl hx))

theorem bfsAux_sound (G : List (Int × Finset Int)) (outlet : Int) (q : List Int)
    (visited : Finset Int)
    (hq : ∀ v ∈ q, v ∈ visited)
    (hvis : ∀ v ∈ visited, Relation.ReflTransGen (upstreamStep G) outlet v) :
    ∀ v ∈ bfsAux G q visited, Relation.ReflTransGen (upstreamStep G) outlet v := by
  induction q, visited using bfsAux.induct G with
  | case1 visited =>
    rw [bfsAux]
    exact hvis
  | case2 visited cur rest ns =>
    rename_i ih
    rw [bfsAux]
    refine ih ?_ ?_
    · intro v hv
      rcases List.mem_append.mp hv with h | h
      · exact Finset.mem_union.mpr (Or.inl (hq v (List.mem_cons_of_mem cur h)))
      · exact Finset.mem_union.mpr (Or.inr ((Finset.mem_sort _).mp h))
    · intro v hv
      rcases Finset.mem_union.mp hv with h | h
      · exact hvis v h
      · have hstep : upstreamStep G cur v := (Finset.mem_filter.mp h).1
        exact Relation.ReflTransGen.tail (hvis cur (hq cur (List.mem_cons_self cur rest))) hstep

theorem bfsAux_closed (G : List (Int × Finset Int)) (q : List Int)
    (visited : Finset Int)
    (hinv : ∀ v ∈ visited, v ∈ q ∨ upstreamOf G v ⊆ visited) :
    ∀ v ∈ bfsAux G q visited, upstreamOf G v ⊆ bfsAux G q visited := by
  induction q, visited using bfsAux.induct G with
  | case1 visited =>
    rw [bfsAux]
    intro v hv
    rcases hinv v hv with h | h
    · cases h
    · exact h
  | case2 visited cur rest ns =>
    rename_i ih
    rw [bfsAux]
    refine ih ?_
    intro v hv
    rcases Finset.mem_union.mp hv with h | h
    · rcases hinv v h with h' | h'
      · rcases List.mem_cons.mp h' with h'' | h''
        · subst h''
          right
          intro u hu
          by_cases hvu : u ∈ visited
          · exact Finset.mem_union.mpr (Or.inl hvu)
          · exact Finset.mem_union.mpr (Or.inr (Finset.mem_filter.mpr ⟨hu, hvu⟩))
        · exact Or.inl (List.mem_append.mpr (Or.inl h''))
      · exact Or.inr (fun u hu => Finset.mem_union.mpr (Or.inl (h' hu)))
    · exact Or.inl (List.mem_append.mpr (Or.inr ((Finset.mem_sort _).mpr h)))

theorem mem_bfs_upstream_iff (G : List (Int × Finset Int)) (outlet x : Int) :
    x ∈ bfs_upstream G outlet ↔ Relation.ReflTransGen (upstreamStep G) outlet x := by
  constructor
  · intro hx
    refine bfsAux_sound G outlet [outlet] {outlet} ?_ ?_ x hx
    · intro v hv
      rcases List.mem_singleton.mp hv with h
      simp [h]
    · intro v hv
      rcases Finset.mem_singleton.mp hv with h
      exact h ▸ Relation.ReflTransGen.refl
  · intro hreach
    have houtlet : outlet ∈ bfs_upstream G outlet :=
      visited_subset_bfsAux G [outlet] {outlet} (Finset.mem_singleton_self outlet)
    have hclosed : ∀ v ∈ bfs_upstream G outlet,
        upstreamOf G v ⊆ bfs_upstream G outlet := by
      refine bfsAux_closed G [outlet] {outlet} ?_
      intro v hv
      exact Or.inl (by simp [Finset.mem_singleton.mp hv])
    induction hreach with
    | refl => exact houtlet
    | tail hab hbc ih => exact hclosed _ ih hbc

theorem bfs_upstream_of_no_upstream (G : List (Int × Finset Int)) (r : Int)
    (h : upstreamOf G r = ∅) : bfs_upstream G r = {r} := by
  ext x
  rw [mem_bfs_upstream_iff, Finset.mem_singleton]
  constructor
  · intro hreach
    rcases Relation.ReflTransGen.cases_head hreach with heq | ⟨b, hb, _⟩
    · exact heq.symm
    · rw [upstreamStep, h] at hb
      exact absurd hb (Finset.not_mem_empty b)
  · intro hx
    exact hx ▸ Relation.ReflTransGen.refl

theorem cycle_step_mem {b c : Int} (hb : b ∈ ({1, 2} : Finset Int))
    (hbc : upstreamStep [(1, ({2} : Finset Int)), (2, ({1} : Finset Int))] b c) :
    c ∈ ({1, 2} : Finset Int) := by
  rcases Finset.mem_insert.mp hb with h | h
  · subst h
    have hc : c ∈ ({2} : Finset Int) := hbc
    simp [Finset.mem_singleton.mp hc]
  · have h' := Finset.mem_singleton.mp h
    subst h'
    have hc : c ∈ ({1} : Finset Int) := hbc
    simp [Finset.mem_singleton.mp hc]

theorem bfs_upstream_cycle :
    bfs_upstream [(1, ({2} : Finset Int)), (2, ({1} : Finset Int))] 1 = {1, 2} := by
  ext x
  rw [mem_bfs_upstream_iff]
  constructor
  · intro hreach
    induction hreach with
    | refl => decide
    | tail hab hbc ih => exact cycle_step_mem ih hbc
  · intro hx
    rcases Finset.mem_insert.mp hx with h | h
    · exact h ▸ Relation.ReflTransGen.refl
    · rw [Finset.mem_singleton.mp h]
      exact Relation.ReflTransGen.single (show (2 : Int) ∈
        upstreamOf [(1, ({2} : Finset Int)), (2, ({1} : Finset Int))] 1 by decide)

/-- C1: `bfs_upstream` returns exactly the ids reachable from the outlet along
the graph's upstream edges, the outlet always included; a reach with no
upstream edges yields the singleton of the outlet, and on the two-cycle
`G[1]={2}, G[2]={1}` the traversal terminates with `{1, 2}`. -/
theorem claim_C1_bfs_upstream_exact :
    (∀ (G : List (Int × Finset Int)) (outlet x : Int),
        x ∈ bfs_upstream G outlet ↔ Relation.ReflTransGen (upstreamStep G) outlet x)
    ∧ (∀ (G : List (Int × Finset Int)) (r : Int),
        upstreamOf G r = ∅ → bfs_upstream G r = {r})
    ∧ bfs_upstream [(1, ({2} : Finset Int)), (2, ({1} : Finset Int))] 1 = {1, 2} :=
  ⟨mem_bfs_upstream_iff, bfs_upstream_of_no_upstream, bfs_upstream_cycle⟩

theorem claim_C1_witness : bfs_upstream [] 5 = {5} :=
  claim_C1_bfs_upstream_exact.2.1 [] 5 rfl

/-! ## Graph builder (`topology.py`, `build_upstream_graph`; `utils.py`, `valid_int`) -/

/-- `valid_int(x)` (`utils.py`, lines 308-312): `int(x)` must succeed and the
result must be strictly positive.  A cell value is embedded as `Option Int`:
`some i` when Python's `int(x)` yields `i`, `none` when the value is missing,
NaN or non-numeric, so that `int(x)` raises. -/
def valid_int : Option Int → Bool
  | some i => decide (0 < i)
  | none => false

/-- The value Python's `int(x)` produces on a cell that converts. -/
def cellInt : Option Int → Int
  | some i => i
  | none => 0

/-- One row of the river-network attribute table: `COMID`, `NextDownID` and
the values of whichever `up1..up4` columns are present. -/
structure RivRow where
  comid : Option Int
  next_down : Option Int
  ups : List (Option Int)

/-- The river table together with which topology column families exist
(`NextDownID` and the `up1..up4` columns). -/
structure RivTable where
  has_next : Bool
  has_up : Bool
  rows : List RivRow

/-- Edges inserted by the `NextDownID` pass of `build_upstream_graph`
(`topology.py`, lines 151-157): for each row with valid `COMID` `c` and valid
`NextDownID` `nd`, insert `nd → c` (so the pair `(d, u)` means `u ∈ G[d]`). -/
def next_edges (t : RivTable) : List (Int × Int) :=
  if t.has_next then
    t.rows.filterMap (fun r =>
      if valid_int r.comid && valid_int r.next_down then
        some (cellInt r.next_down, cellInt r.comid)
      else none)
  else []

/-- Edges inserted by the `up1..up4` pass (`topology.py`, lines 159-170): for
each row with valid `COMID` `d` and each valid up-slot value `u`, insert
`d → u`. -/
def up_edges (t : RivTable) : List (Int × Int) :=
  if t.has_up then
    t.rows.flatMap (fun r =>
      if valid_int r.comid then
        r.ups.filterMap (fun u =>
          if valid_int u then some (cellInt r.comid, cellInt u) else none)
      else [])
  else []

/-- `build_upstream_graph` (`topology.py`, lines 144-179), with the graph
flattened to its multiset of edges (the Python `defaultdict(set)` dedups, which
does not affect edge membership): raises when neither topology field family is
present, otherwise returns both edge families. -/
def build_upstream_graph (t : RivTable) : Except String (List (Int × Int)) :=
  if !t.has_next && !t.has_up then
    .error "missing topology fields NextDownID and up1..up4"
  else
    .ok (next_edges t ++ up_edges t)

theorem mem_next_edges_iff (t : RivTable) (d u : Int) :
    (d, u) ∈ next_edges t ↔
      t.has_next = true ∧ ∃ r ∈ t.rows,
        r.next_down = some d ∧ r.comid = some u ∧ 0 < d ∧ 0 < u := by
  unfold next_edges
  by_cases h : t.has_next
  · rw [if_pos h]
    simp only [List.mem_filterMap, h, true_and]
    constructor
    · rintro ⟨r, hr, hval⟩
      by_cases hvv : valid_int r.comid && valid_int r.next_down
      · rw [if_pos hvv] at hval
        have hcases := Bool.and_eq_true _ _ ▸ hvv
        obtain ⟨hc, hnd⟩ := hcases
        cases hcm : r.comid with
        | none => rw [hcm] at hc; exact absurd hc (by simp [valid_int])
        | some c =>
          cases hnm : r.next_down with
          | none => rw [hnm] at hnd; exact absurd hnd (by simp [valid_int])
          | some nd =>
            rw [hcm] at hc
            rw [hnm] at hnd
            have hc' : 0 < c := by simpa [valid_int] using hc
            have hnd' : 0 < nd := by simpa [valid_int] using hnd
            rw [hcm, hnm] at hval
            simp only [cellInt, Option.some.injEq] at hval
            obtain ⟨h1, h2⟩ := Prod.mk.injEq _ _ _ _ ▸ hval
            exact ⟨r, hr, by rw [hnm, h1], by rw [hcm, h2], h1 ▸ hnd', h2 ▸ hc'⟩
      · rw [if_neg hvv] at hval
        cases hval
    · rintro ⟨r, hr, hnd, hc, hd, hu⟩
      refine ⟨r, hr, ?_⟩
      rw [hnd, hc]
      simp [valid_int, cellInt, hd, hu]
  · rw [if_neg h]
    simp [h]

theorem mem_up_edges_iff (t : RivTable) (d u : Int) :
    (d, u) ∈ up_edges t ↔
      t.has_up = true ∧ ∃ r ∈ t.rows,
        r.comid = some d ∧ 0 < d ∧ some u ∈ r.ups ∧ 0 < u := by
  unfold up_edges
  by_cases h : t.has_up
  · rw [if_pos h]
    simp only [List.mem_flatMap, h, true_and]
    constructor
    · rintro ⟨r, hr, hval⟩
      by_cases hc : valid_int r.comid
      · rw [if_pos hc] at hval
        rcases List.mem_filterMap.mp hval with ⟨v, hv, hveq⟩
        by_cases hvv : valid_int v
        · rw [if_pos hvv] at hveq
          cases hcm : r.comid with
          | none => rw [hcm] at hc; exact absurd hc (by simp [valid_int])
          | some c =>
            cases hvm : v with
            | none => rw [hvm] at hvv; exact absurd hvv (by simp [valid_int])
            | some w =>
              rw [hcm] at hc
              rw [hvm] at hvv
              have hc' : 0 < c := by simpa [valid_int] using hc
              have hw' : 0 < w := by simpa [valid_int] using hvv
              rw [hcm] at hveq
              rw [hvm] at hv
              simp only [cellInt, hvm, Option.some.injEq] at hveq
              obtain ⟨h1, h2⟩ := Prod.mk.injEq _ _ _ _ ▸ hveq
              exact ⟨r, hr, by rw [hcm, h1], h1 ▸ hc', h2 ▸ hv, h2 ▸ hw'⟩
        · rw [if_neg hvv] at hveq
          cases hveq
      · rw [if_neg hc] at hval
        cases hval
    · rintro ⟨r, hr, hc, hd, hu, hupos⟩
      refine ⟨r, hr, ?_⟩
      rw [hc]
      have hcv : valid_int (some d) = true := by simp [valid_int, hd]
      rw [if_pos hcv]
      refine List.mem_filterMap.mpr ⟨some u, hu, ?_⟩
      simp [valid_int, cellInt, hupos]
  · rw [if_neg h]
    simp [h]

/-- C5: membership in the built graph's edge multiset is exactly: a valid
positive `NextDownID` reference `d` on a reach with valid positive id `u`
gives edge `d → u` (reverse of the downstream pointer), and a valid positive
up-slot value `u` on a reach with valid positive id `d` gives edge `d → u`;
everything else inserts nothing.  `valid_int` accepts exactly the values that
convert to a strictly positive integer. -/
theorem claim_C5_graph_builder_edges :
    (∀ (t : RivTable) (es : List (Int × Int)),
        build_upstream_graph t = .ok es →
        ∀ d u : Int, (d, u) ∈ es ↔
          (t.has_next = true ∧ ∃ r ∈ t.rows,
            r.next_down = some d ∧ r.comid = some u ∧ 0 < d ∧ 0 < u)
          ∨ (t.has_up = true ∧ ∃ r ∈ t.rows,
            r.comid = some d ∧ 0 < d ∧ some u ∈ r.ups ∧ 0 < u))
    ∧ (∀ v : Option Int, valid_int v = true ↔ ∃ i : Int, v = some i ∧ 0 < i) := by
  constructor
  · intro t es hok d u
    have hes : es = next_edges t ++ up_edges t := by
      unfold build_upstream_graph at hok
      by_cases h : !t.has_next && !t.has_up
      · rw [if_pos h] at hok
        cases hok
      · rw [if_neg h] at hok
        cases hok
        rfl
    rw [hes, List.mem_append, mem_next_edges_iff, mem_up_edges_iff]
  · intro v
    cases v with
    | none => simp [valid_int]
    | some i =>
      simp only [valid_int, decide_eq_true_eq, Option.some.injEq]
      constructor
      · intro h
        exact ⟨i, rfl, h⟩
      · rintro ⟨j, hj, hjpos⟩
        exact hj ▸ hjpos

theorem claim_C5_witness :
    ((7 : Int), (3 : Int)) ∈ next_edges
      ⟨true, false, [⟨some 3, some 7, []⟩]⟩ ++ up_edges
      ⟨true, false, [⟨some 3, some 7, []⟩]⟩ :=
  (claim_C5_graph_builder_edges.1 ⟨true, false, [⟨some 3, some 7, []⟩]⟩ _ rfl 7 3).mpr
    (Or.inl ⟨rfl, ⟨some 3, some 7, []⟩, by simp, rfl, rfl, by decide, by decide⟩)

/-! ## Nearest reach selector (`gis_utils.py`, `pick_nearest_reach`)

The spatial-index envelope query (`sidx.intersection(buffer_bounds)`) and the
planar distance computation are geopandas/shapely operations; the embedding
takes their combined outcome as input: the list of candidate rows whose
bounding envelope intersected the square search window, each carrying its
exact planar distance to the station and the attributes joined from the
WGS84 table (`order`/`uparea` with absent values already defaulted to 0, as
the code's `fillna(0)` does). -/

/-- One candidate row after distance computation and attribute join. -/
structure Cand where
  comid : Int
  dist : ℚ
  ord : Int
  uparea : ℚ
deriving DecidableEq, Repr

/-- The pandas 3-key comparison used by `cand.sort_values` in
`pick_nearest_reach` (`gis_utils.py`, lines 78-87): keys
`["_order_", "__dist__", "_uparea_"]` with ascending flags
`[False, True, False]` when `order_first`, else keys
`["__dist__", "_order_", "_uparea_"]` with `[True, False, False]`. -/
def candLE (order_first : Bool) (a b : Cand) : Bool :=
  if order_first then
    if a.ord ≠ b.ord then decide (b.ord < a.ord)
    else if a.dist ≠ b.dist then decide (a.dist < b.dist)
    else decide (b.uparea ≤ a.uparea)
  else
    if a.dist ≠ b.dist then decide (a.dist < b.dist)
    else if a.ord ≠ b.ord then decide (b.ord < a.ord)
    else decide (b.uparea ≤ a.uparea)

/-- The spec's ranking, written as the spec words it: primary key stream
order descending (flag on) or distance ascending (flag off), then the other,
then upstream area descending.  `rank_beats f a b` says `a` ranks at least as
high as `b`. -/
def rank_beats (order_first : Bool) (a b : Cand) : Prop :=
  if order_first then
    b.ord < a.ord ∨ (a.ord = b.ord ∧ (a.dist < b.dist ∨ (a.dist = b.dist ∧ b.uparea ≤ a.uparea)))
  else
    a.dist < b.dist ∨ (a.dist = b.dist ∧ (b.ord < a.ord ∨ (a.ord = b.ord ∧ b.uparea ≤ a.uparea)))

theorem candLE_iff (f : Bool) (a b : Cand) : candLE f a b = true ↔ rank_beats f a b := by
  cases f <;>
    simp only [candLE, rank_beats] <;>
    split_ifs <;>
    simp_all

theorem rank_beats_total (f : Bool) (a b : Cand) : rank_beats f a b ∨ rank_beats f b a := by
  cases f <;> simp only [rank_beats, Bool.false_eq_true, if_false, if_true] <;>
    rcases lt_trichotomy a.ord b.ord with h1 | h1 | h1 <;>
    rcases lt_trichotomy a.dist b.dist with h2 | h2 | h2 <;>
    rcases le_total a.uparea b.uparea with h3 | h3 <;>
    tauto

theorem rank_beats_trans (f : Bool) (a b c : Cand) (h1 : rank_beats f a b)
    (h2 : rank_beats f b c) : rank_beats f a c := by
  cases f <;> simp only [rank_beats, Bool.false_eq_true, if_false, if_true] at * <;>
    rcases h1 with h1 | ⟨e1, h1 | ⟨e1', h1⟩⟩ <;>
    rcases h2 with h2 | ⟨e2, h2 | ⟨e2', h2⟩⟩ <;>
    first
      | (left; omega)
      | (left; linarith)
      | (right; refine ⟨by omega, ?_⟩; first
          | (left; linarith)
          | (right; exact ⟨by linarith, by linarith⟩))
      | (right; refine ⟨by linarith, ?_⟩; first
          | (left; omega)
          | (right; exact ⟨by omega, by linarith⟩))

/-- `pick_nearest_reach` (`gis_utils.py`, lines 53-96) applied to the
candidate rows the envelope query produced: raise when there is no candidate,
otherwise sort by the 3-key comparison and return the first row's
`(COMID, distance, order, uparea)`.  The snap radius parameter only sizes the
search window that produced `cands`; the selection itself never consults it. -/
def pick_nearest_reach (snap_dist_m : ℚ) (cands : List Cand) (order_first : Bool) :
    Except String (Int × ℚ × Int × ℚ) :=
  if cands.isEmpty then .error "no reach within snap radius"
  else
    match (List.insertionSort (fun a b => candLE order_first a b = true) cands).head? with
    | some r => .ok (r.comid, r.dist, r.ord, r.uparea)
    | none => .error "no reach within snap radius"

theorem pick_nearest_reach_min (sd : ℚ) (cands : List Cand) (f : Bool)
    (h : cands ≠ []) :
    ∃ c ∈ cands, pick_nearest_reach sd cands f = .ok (c.comid, c.dist, c.ord, c.uparea)
      ∧ ∀ d ∈ cands, rank_beats f c d := by
  haveI : IsTotal Cand (fun a b => candLE f a b = true) :=
    ⟨fun a b => by
      rw [candLE_iff, candLE_iff]
      exact rank_beats_total f a b⟩
  haveI : IsTrans Cand (fun a b => candLE f a b = true) :=
    ⟨fun a b c hab hbc => by
      rw [candLE_iff] at *
      exact rank_beats_trans f a b c hab hbc⟩
  have hlen : (List.insertionSort (fun a b => candLE f a b = true) cands).length =
      cands.length := List.length_insertionSort _ _
  cases hs : List.insertionSort (fun a b => candLE f a b = true) cands with
  | nil =>
    exfalso
    rw [hs] at hlen
    exact h (List.eq_nil_of_length_eq_zero hlen.symm)
  | cons c t =>
    have hmem : c ∈ cands := by
      rw [← List.mem_insertionSort (fun a b => candLE f a b = true) (l := cands), hs]
      exact List.mem_cons_self c t
    refine ⟨c, hmem, ?_, ?_⟩
    · unfold pick_nearest_reach
      rw [if_neg (by simpa using h), hs]
      rfl
    · intro d hd
      have hd' : d ∈ List.insertionSort (fun a b => candLE f a b = true) cands :=
        (List.mem_insertionSort _).mpr hd
      rw [hs] at hd'
      rcases List.mem_cons.mp hd' with h' | h'
      · rw [h']
        rcases rank_beats_total f c c with hcc | hcc <;> exact hcc
      · have hsorted := List.sorted_insertionSort (fun a b => candLE f a b = true) cands
        rw [hs] at hsorted
        exact (candLE_iff f c d).mp (List.rel_of_sorted_cons hsorted d h')

theorem pick_nearest_reach_error_iff (sd : ℚ) (cands : List Cand) (f : Bool) :
    (∃ e, pick_nearest_reach sd cands f = .error e) ↔ cands = [] := by
  constructor
  · rintro ⟨e, he⟩
    by_contra hne
    obtain ⟨c, _, hok, _⟩ := pick_nearest_reach_min sd cands f hne
    rw [hok] at he
    cases he
  · intro h
    subst h
    exact ⟨"no reach within snap radius", rfl⟩

theorem pick_nearest_reach_ok_mem (sd : ℚ) (cands : List Cand) (f : Bool)
    (ci : Int) (dv : ℚ) (oi : Int) (ua : ℚ)
    (h : pick_nearest_reach sd cands f = .ok (ci, dv, oi, ua)) :
    ∃ c ∈ cands, c.comid = ci ∧ c.dist = dv ∧ c.ord = oi ∧ c.uparea = ua := by
  have hne : cands ≠ [] := by
    intro hnil
    subst hnil
    cases h
  obtain ⟨c, hc, hok, _⟩ := pick_nearest_reach_min sd cands f hne
  rw [hok] at h
  have heq := Except.ok.inj h
  simp only [Prod.mk.injEq] at heq
  obtain ⟨h1, h2, h3, h4⟩ := heq
  exact ⟨c, hc, h1, h2, h3, h4⟩

/-- C3: on a non-empty candidate set the selector returns a candidate that is
ranked highest by the 3-key sort — order descending, then distance ascending,
then upstream area descending when the preference flag is on; distance
ascending, then order descending, then upstream area descending when it is
off — and on the concrete pair A=(dist 80, order 2, area 100),
B=(dist 120, order 5, area 10), the flag-off selector picks A and the flag-on
selector picks B. -/
theorem claim_C3_selector_ranking :
    (∀ (sd : ℚ) (cands : List Cand) (f : Bool), cands ≠ [] →
        ∃ c ∈ cands,
          pick_nearest_reach sd cands f = .ok (c.comid, c.dist, c.ord, c.uparea)
          ∧ ∀ d ∈ cands, rank_beats f c d)
    ∧ pick_nearest_reach 5000 [⟨1, 80, 2, 100⟩, ⟨2, 120, 5, 10⟩] false = .ok (1, 80, 2, 100)
    ∧ pick_nearest_reach 5000 [⟨1, 80, 2, 100⟩, ⟨2, 120, 5, 10⟩] true = .ok (2, 120, 5, 10) :=
  ⟨pick_nearest_reach_min, by rfl, by rfl⟩

theorem claim_C3_witness :
    ∃ c ∈ ([⟨9, 50, 3, 20⟩] : List Cand),
      pick_nearest_reach 100 ([⟨9, 50, 3, 20⟩] : List Cand) false =
        .ok (c.comid, c.dist, c.ord, c.uparea)
      ∧ ∀ d ∈ ([⟨9, 50, 3, 20⟩] : List Cand), rank_beats false c d :=
  claim_C3_selector_ranking.1 100 ([⟨9, 50, 3, 20⟩] : List Cand) false (by decide)

/-- C10 (implicit): the selector never filters candidates by their exact
planar distance — it fails exactly when the envelope query returned no
candidate, any returned tuple comes verbatim from some candidate row with no
constraint tying its distance to the snap radius, and on a concrete input the
returned snap distance (6000) strictly exceeds the configured radius (5000). -/
theorem claim_C10_selector_no_distance_filter :
    (∀ (sd : ℚ) (cands : List Cand) (f : Bool),
        (∃ e, pick_nearest_reach sd cands f = .error e) ↔ cands = [])
    ∧ (∀ (sd : ℚ) (cands : List Cand) (f : Bool) (ci : Int) (dv : ℚ) (oi : Int) (ua : ℚ),
        pick_nearest_reach sd cands f = .ok (ci, dv, oi, ua) →
        ∃ c ∈ cands, c.comid = ci ∧ c.dist = dv ∧ c.ord = oi ∧ c.uparea = ua)
    ∧ (pick_nearest_reach 5000 [⟨7, 6000, 1, 2⟩] false = .ok (7, 6000, 1, 2)
        ∧ (5000 : ℚ) < 6000) :=
  ⟨pick_nearest_reach_error_iff, pick_nearest_reach_ok_mem, by rfl, by norm_num⟩

theorem claim_C10_witness :
    ∃ c ∈ ([⟨7, 6000, 1, 2⟩] : List Cand),
      c.comid = 7 ∧ c.dist = 6000 ∧ c.ord = 1 ∧ c.uparea = 2 :=
  claim_C10_selector_no_distance_filter.2.1 5000 ([⟨7, 6000, 1, 2⟩] : List Cand)
    false 7 6000 1 2 (by rfl)

/-! ## Hole filtering and robust merge (`gis_utils.py`) -/

/-- A linear ring of a shapely polygon, carrying the one attribute the code
reads from it: the planar area (in square degrees, WGS84 coordinates) of the
polygon `Polygon(interior)` built over it. -/
structure Ring where
  area_deg2 : ℚ
deriving DecidableEq, Repr

/-- A shapely `Polygon`: exterior ring plus a list of interior rings. -/
structure Poly where
  exterior : Ring
  interiors : List Ring
deriving DecidableEq, Repr

/-- A shapely geometry as `remove_small_holes` discriminates it: `Polygon`,
`MultiPolygon`, or anything else (returned untouched). -/
inductive Geom where
  | poly : Poly → Geom
  | multi : List Poly → Geom
  | other : Geom
deriving DecidableEq, Repr

/-- The inner `fix_polygon` of `remove_small_holes` (`gis_utils.py`,
lines 192-217): keep the exterior, keep exactly the interior rings whose area
in square degrees is at least the converted threshold. -/
def fix_polygon (min_area_deg2 : ℚ) (p : Poly) : Poly :=
  { exterior := p.exterior,
    interiors := p.interiors.filter (fun r => decide (min_area_deg2 ≤ r.area_deg2)) }

/-- `remove_small_holes(geom, min_area_km2)` (`gis_utils.py`, lines 118-225):
convert the km² threshold to square degrees by the fixed local factor
1 degree² ≈ 10,000 km², filter each polygon's interiors, map over the parts
of a `MultiPolygon`, and return any other geometry unchanged. -/
def remove_small_holes (geom : Geom) (min_area_km2 : ℚ) : Geom :=
  let min_area_deg2 := min_area_km2 / 10000
  match geom with
  | .poly p => .poly (fix_polygon min_area_deg2 p)
  | .multi ps => .multi (ps.map (fix_polygon min_area_deg2))
  | .other => .other

theorem mem_fix_polygon_interiors (t : ℚ) (p : Poly) (r : Ring) :
    r ∈ (fix_polygon (t / 10000) p).interiors ↔
      r ∈ p.interiors ∧ t ≤ 10000 * r.area_deg2 := by
  unfold fix_polygon
  simp only [List.mem_filter, decide_eq_true_eq]
  constructor
  · rintro ⟨hr, hle⟩
    refine ⟨hr, ?_⟩
    have := (div_le_iff₀ (by norm_num : (0 : ℚ) < 10000)).mp hle
    linarith
  · rintro ⟨hr, hle⟩
    refine ⟨hr, ?_⟩
    rw [div_le_iff₀ (by norm_num : (0 : ℚ) < 10000)]
    linarith

/-- C4: the hole filter removes exactly the interior rings whose approximate
area (square degrees times the fixed 10,000 km²-per-degree² factor) is
strictly below the threshold, keeps every ring at or above it unchanged,
processes `MultiPolygon`s component-wise, and on the concrete polygon with a
~0.5 km² ring and a ~6 km² ring at threshold 1 km² keeps exactly the ~6 km²
ring with its area unchanged. -/
theorem claim_C4_hole_filtering :
    (∀ (p : Poly) (t : ℚ), ∃ q : Poly,
        remove_small_holes (.poly p) t = .poly q
        ∧ q.exterior = p.exterior
        ∧ ∀ r : Ring, r ∈ q.interiors ↔ (r ∈ p.interiors ∧ t ≤ 10000 * r.area_deg2))
    ∧ (∀ (ps : List Poly) (t : ℚ), ∃ qs : List Poly,
        remove_small_holes (.multi ps) t = .multi qs
        ∧ List.Forall₂ (fun p q => remove_small_holes (.poly p) t = .poly q) ps qs)
    ∧ remove_small_holes (.poly ⟨⟨1⟩, [⟨5 / 100000⟩, ⟨6 / 10000⟩]⟩) 1 =
        .poly ⟨⟨1⟩, [⟨6 / 10000⟩]⟩ := by
  refine ⟨?_, ?_, by simp only [remove_small_holes, fix_polygon, List.filter]; norm_num⟩
  · intro p t
    exact ⟨fix_polygon (t / 10000) p, rfl, rfl, mem_fix_polygon_interiors t p⟩
  · intro ps t
    refine ⟨ps.map (fix_polygon (t / 10000)), rfl, ?_⟩
    rw [List.forall₂_map_right_iff]
    exact (List.forall₂_same).mpr (fun p _ => rfl)

/-- The shapely operations `merge_catchments_fixed_robust` delegates to:
validity test, buffering by a distance, and n-ary union.  They act on real
planar geometry and are abstracted as an arbitrary interpretation. -/
structure GeomOps where
  is_valid : Geom → Bool
  buffer : Geom → ℚ → Geom
  union : List Geom → Geom

/-- Stage 1 of `merge_catchments_fixed_robust` (`gis_utils.py`,
lines 542-552): the loop that buffers each invalid geometry by zero and
counts how many were repaired. -/
def repair_stage (ops : GeomOps) (geometries : List Geom) : List Geom × Nat :=
  geometries.foldl
    (fun acc g =>
      if ops.is_valid g then (acc.1 ++ [g], acc.2)
      else (acc.1 ++ [ops.buffer g 0], acc.2 + 1))
    ([], 0)

/-- `merge_catchments_fixed_robust` (`gis_utils.py`, lines 228-566): repair
stage, `unary_union`, outward-then-inward buffer of the same distance, then
`remove_small_holes`. -/
def merge_catchments_fixed_robust (ops : GeomOps) (geometries : List Geom)
    (buffer_dist : ℚ) (min_hole_km2 : ℚ) : Geom :=
  let s := repair_stage ops geometries
  let merged := ops.union s.1
  let merged := ops.buffer (ops.buffer merged buffer_dist) (-buffer_dist)
  remove_small_holes merged min_hole_km2

theorem repair_stage_go (ops : GeomOps) (gs : List Geom) (acc : List Geom) (n : Nat) :
    gs.foldl
      (fun acc g =>
        if ops.is_valid g then (acc.1 ++ [g], acc.2)
        else (acc.1 ++ [ops.buffer g 0], acc.2 + 1))
      (acc, n) =
    (acc ++ gs.map (fun g => if ops.is_valid g then g else ops.buffer g 0),
     n + gs.countP (fun g => !ops.is_valid g)) := by
  induction gs generalizing acc n with
  | nil => simp
  | cons g gs ih =>
    simp only [List.foldl_cons, List.map_cons, List.countP_cons]
    by_cases h : ops.is_valid g
    · rw [if_pos h, if_pos h, ih]
      simp [h]
    · rw [if_neg h, if_neg h, ih]
      have hb : (!ops.is_valid g) = true := by simp [h]
      rw [hb]
      simp only [if_true, Prod.mk.injEq]
      refine ⟨by simp, by omega⟩

theorem repair_stage_spec (ops : GeomOps) (gs : List Geom) :
    repair_stage ops gs =
      (gs.map (fun g => if ops.is_valid g then g else ops.buffer g 0),
       gs.countP (fun g => !ops.is_valid g)) := by
  unfold repair_stage
  rw [repair_stage_go]
  simp

/-- C9: the merge pipeline equals the four stages composed in order — repair
each invalid input with a zero-width buffer, union, outward buffer of ε then
inward buffer of ε, hole filtering — each input contributes exactly one
(repaired) geometry to the union regardless of validity, and the reported
repair count is the number of invalid inputs; being a total function over an
arbitrary interpretation of the geometry operations, no invalid input can
abort it. -/
theorem claim_C9_merge_pipeline :
    ∀ (ops : GeomOps) (gs : List Geom) (eps t : ℚ),
      merge_catchments_fixed_robust ops gs eps t =
        remove_small_holes
          (ops.buffer
            (ops.buffer
              (ops.union (gs.map (fun g => if ops.is_valid g then g else ops.buffer g 0)))
              eps)
            (-eps))
          t
      ∧ (repair_stage ops gs).1.length = gs.length
      ∧ (repair_stage ops gs).2 = gs.countP (fun g => !ops.is_valid g) := by
  intro ops gs eps t
  refine ⟨?_, ?_, ?_⟩
  · unfold merge_catchments_fixed_robust
    rw [repair_stage_spec]
  · rw [repair_stage_spec]
    exact List.length_map _ _
  · rw [repair_stage_spec]

/-! ## Reference-area normalization (`io.py`, `normalize_area_to_m2`) -/

/-- pandas `Series.median` on the non-missing values: sort ascending, take
the middle element for odd length, the mean of the two middle elements for
even length. -/
def series_median (l : List ℚ) : ℚ :=
  let s := List.insertionSort (· ≤ ·) l
  if l.length % 2 = 1 then s.getD (l.length / 2) 0
  else (s.getD (l.length / 2 - 1) 0 + s.getD (l.length / 2) 0) / 2

/-- `normalize_area_to_m2(series_area)` (`io.py`, lines 464-479): a pandas
series of possibly-missing areas becomes `List (Option ℚ)` (`none` = NaN);
`dropna` is `filterMap id`, the whole-series multiplication maps over present
values (NaN stays NaN), and `AREA_UNIT_THRESHOLD` is 1,000,000. -/
def normalize_area_to_m2 (series_area : List (Option ℚ)) : List (Option ℚ) :=
  let s := series_area.filterMap id
  if s.isEmpty then series_area
  else if series_median s < 1000000 then series_area.map (Option.map (· * 1000000))
  else series_area

theorem normalize_area_below (series : List (Option ℚ))
    (hne : series.filterMap id ≠ [])
    (hmed : series_median (series.filterMap id) < 1000000) :
    normalize_area_to_m2 series = series.map (Option.map (· * 1000000)) := by
  unfold normalize_area_to_m2
  rw [if_neg (by simpa using hne), if_pos hmed]

theorem normalize_area_at_or_above (series : List (Option ℚ))
    (hmed : 1000000 ≤ series_median (series.filterMap id)) :
    normalize_area_to_m2 series = series := by
  unfold normalize_area_to_m2
  by_cases h : (series.filterMap id).isEmpty
  · rw [if_pos h]
  · rw [if_neg h, if_neg (not_lt.mpr hmed)]

/-- C7: the normalizer compares the median of the non-missing values with
1,000,000 — strictly below, every value is multiplied by 1,000,000; at or
above, the series is unchanged — and on the concrete series
`[1500, 2000, 2500]` it produces `[1.5e9, 2.0e9, 2.5e9]` while
`[1.5e9, 2.0e9]` is returned unchanged. -/
theorem claim_C7_area_normalization :
    (∀ series : List (Option ℚ),
        series.filterMap id ≠ [] →
        series_median (series.filterMap id) < 1000000 →
        normalize_area_to_m2 series = series.map (Option.map (· * 1000000)))
    ∧ (∀ series : List (Option ℚ),
        1000000 ≤ series_median (series.filterMap id) →
        normalize_area_to_m2 series = series)
    ∧ normalize_area_to_m2 [some 1500, some 2000, some 2500] =
        [some 1500000000, some 2000000000, some 2500000000]
    ∧ normalize_area_to_m2 [some 1500000000, some 2000000000] =
        [some 1500000000, some 2000000000] := by
  refine ⟨normalize_area_below, normalize_area_at_or_above, ?_, ?_⟩
  · norm_num [normalize_area_to_m2, series_median, List.insertionSort, List.orderedInsert,
      List.filterMap]
  · norm_num [normalize_area_to_m2, series_median, List.insertionSort, List.orderedInsert,
      List.filterMap]

theorem claim_C7_witness :
    normalize_area_to_m2 [some 3] = ([some 3] : List (Option ℚ)).map (Option.map (· * 1000000)) :=
  claim_C7_area_normalization.1 [some 3] (by simp)
    (by norm_num [series_median, List.insertionSort, List.orderedInsert, List.filterMap])

/-! ## Parallel batch coordinator (`extract_merit_catchment.py`)

`process_one_site` is invoked by the batch code but its body is not part of
the sources here; it enters the model as an arbitrary function `run` that
either returns a result dict or raises (`Outcome.exn`).  A worker process
either raised out of `process_station_worker` (its pre-`try` initialization
check) or returned a dict; `fut.result()` in `main` re-raises the former,
and the surrounding `try/except` converts any such exception to a `fail`
row.  Station geometry payloads (`res["gdf"]`) are opaque handles. -/

/-- An extraction status as written into the ledger. -/
inductive Status where
  | ok
  | reject
  | fail
deriving DecidableEq, Repr

/-- The per-station result dict: `code`, `status`, optional `msg`, optional
`rel_error`, optional geometry payload `gdf`. -/
structure ResultR where
  code : String
  status : Status
  msg : Option String := none
  rel_error : Option ℚ := none
  gdf : Option Nat := none
deriving DecidableEq, Repr

/-- The scalar fields of one submitted station task. -/
structure Station where
  code : String
  lon : ℚ
  lat : ℚ
  area_m2 : Option ℚ
deriving DecidableEq, Repr

/-- A Python call that either returns normally or raises. -/
inductive Outcome where
  | ok : ResultR → Outcome
  | exn : String → Outcome
deriving DecidableEq, Repr

/-- `process_station_worker(station)` (`extract_merit_catchment.py`,
lines 334-364): raise `RuntimeError` before the `try` when the worker was
never initialized; otherwise call `process_one_site` and convert any
exception it raises into a returned dict
`{"code": code, "status": "fail", "msg": str(e)}`. -/
def process_station_worker (initOk : Bool) (run : Station → Outcome)
    (station : Station) : Outcome :=
  if !initOk then
    .exn "Worker resources not initialized. Ensure ProcessPoolExecutor initializer was used."
  else
    match run station with
    | .ok r => .ok r
    | .exn e => .ok { code := station.code, status := .fail, msg := some e }

/-- The collection step of `main` (`extract_merit_catchment.py`,
lines 476-485): `fut.result()` re-raises whatever escaped the worker, and the
`try/except` turns it into a `fail` row for that station. -/
def collect_result (st : Station) (fut : Outcome) : ResultR :=
  match fut with
  | .ok r => r
  | .exn e => { code := st.code, status := .fail, msg := some e }

/-- The parallel phase of `main`: one task per pending station, one collected
result row per task (completion order only permutes rows, which none of the
claims depend on). -/
def run_batch (initOk : Bool) (run : Station → Outcome)
    (stations : List Station) : List ResultR :=
  stations.map (fun st => collect_result st (process_station_worker initOk run st))

/-- The `value_counts` summary of `main` (`extract_merit_catchment.py`,
lines 537-539) reindexed over `["ok", "reject", "fail"]`. -/
def status_counts (rs : List ResultR) : Nat × Nat × Nat :=
  (rs.countP (fun r => r.status == Status.ok),
   rs.countP (fun r => r.status == Status.reject),
   rs.countP (fun r => r.status == Status.fail))

theorem status_counts_sum (rs : List ResultR) :
    rs.countP (fun r => r.status == Status.ok)
      + rs.countP (fun r => r.status == Status.reject)
      + rs.countP (fun r => r.status == Status.fail) = rs.length := by
  induction rs with
  | nil => rfl
  | cons r rs ih =>
    simp only [List.countP_cons, List.length_cons]
    cases h : r.status <;> simp [h] <;> omega

/-- C2: the batch is a total function of its inputs — one result row per
station, with the three status counts always summing to the number of
stations — and whenever `process_one_site` raises on a station, the row the
batch records for it has status `fail`, that station's code, and a message;
no per-station exception escapes. -/
theorem claim_C2_per_station_fail_containment :
    (∀ (initOk : Bool) (run : Station → Outcome) (stations : List Station),
        (run_batch initOk run stations).length = stations.length)
    ∧ (∀ (initOk : Bool) (run : Station → Outcome) (st : Station) (e : String),
        run st = .exn e →
        (collect_result st (process_station_worker initOk run st)).status = .fail
        ∧ (collect_result st (process_station_worker initOk run st)).code = st.code
        ∧ ∃ m, (collect_result st (process_station_worker initOk run st)).msg = some m)
    ∧ (∀ (initOk : Bool) (run : Station → Outcome) (stations : List Station),
        (status_counts (run_batch initOk run stations)).1
        + (status_counts (run_batch initOk run stations)).2.1
        + (status_counts (run_batch initOk run stations)).2.2 = stations.length) := by
  refine ⟨?_, ?_, ?_⟩
  · intro initOk run stations
    exact List.length_map _ _
  · intro initOk run st e he
    cases initOk with
    | false => exact ⟨rfl, rfl, _, rfl⟩
    | true =>
      unfold process_station_worker collect_result
      rw [he]
      exact ⟨rfl, rfl, e, rfl⟩
  · intro initOk run stations
    simp only [status_counts]
    rw [status_counts_sum]
    exact List.length_map _ _

theorem claim_C2_witness :
    (collect_result ⟨"s1", 0, 0, none⟩
        (process_station_worker true (fun _ => .exn "boom") ⟨"s1", 0, 0, none⟩)).status = .fail
    ∧ (collect_result ⟨"s1", 0, 0, none⟩
        (process_station_worker true (fun _ => .exn "boom") ⟨"s1", 0, 0, none⟩)).code = "s1"
    ∧ ∃ m, (collect_result ⟨"s1", 0, 0, none⟩
        (process_station_worker true (fun _ => .exn "boom") ⟨"s1", 0, 0, none⟩)).msg = some m :=
  claim_C2_per_station_fail_containment.2.1 true (fun _ => .exn "boom")
    ⟨"s1", 0, 0, none⟩ "boom" rfl

/-- The combined-output accumulation of `main` (`extract_merit_catchment.py`,
lines 487-490): a result contributes its geometry to `all_catchments` exactly
when its status is `"ok"` and its `gdf` payload is present. -/
def collect_catchments (rs : List ResultR) : List Nat :=
  rs.filterMap (fun r => if r.status == Status.ok then r.gdf else none)

/-- C6 counterexample: a tolerance-rejected result that carries a merged
polygon contributes nothing to the combined geometry collection, so the
collection does not contain the polygon of every `ok`-or-`reject` station. -/
theorem claim_C6_counterexample :
    (⟨"s1", Status.reject, none, none, some 7⟩ : ResultR).status = Status.reject
    ∧ (⟨"s1", Status.reject, none, none, some 7⟩ : ResultR).gdf = some 7
    ∧ collect_catchments [⟨"s1", Status.reject, none, none, some 7⟩] = [] :=
  ⟨rfl, rfl, rfl⟩

/-- C6 (amended): the combined geometry collection contains exactly the
polygons of stations whose result status is `ok` and which carry a polygon;
`reject` results, even when they carry a polygon, are excluded. -/
theorem claim_C6_amended_combined_output :
    ∀ (rs : List ResultR) (g : Nat),
      g ∈ collect_catchments rs ↔ ∃ r ∈ rs, r.status = Status.ok ∧ r.gdf = some g := by
  intro rs g
  unfold collect_catchments
  rw [List.mem_filterMap]
  constructor
  · rintro ⟨r, hr, hval⟩
    by_cases h : r.status == Status.ok
    · rw [if_pos h] at hval
      exact ⟨r, hr, by simpa using h, hval⟩
    · rw [if_neg h] at hval
      cases hval
  · rintro ⟨r, hr, hst, hgdf⟩
    refine ⟨r, hr, ?_⟩
    rw [if_pos (by simp [hst]), hgdf]

/-! ## Resume filter (`extract_merit_catchment.py`, `main`, lines 386-398) -/

/-- One row of the previously written `summary.csv` ledger as the resume
logic reads it: a station code and its prior status. -/
structure LedgerRow where
  code : String
  status : Status
deriving DecidableEq, Repr

/-- `completed = set(df_prev[df_prev["status"] == "ok"]["code"])`: the codes
whose prior status is `ok`. -/
def completed_codes (ledger : List LedgerRow) : List String :=
  (ledger.filter (fun r => r.status == Status.ok)).map (fun r => r.code)

/-- `df_info = df_info[~df_info["code"].isin(completed)]`: drop every pending
station whose code is in the completed set. -/
def resume_pending (stations : List String) (ledger : List LedgerRow) : List String :=
  stations.filter (fun c => !(completed_codes ledger).contains c)

/-- C8: after the resume filter a station code is pending iff it was in the
station list and no ledger row records it with status `ok`; codes whose prior
status was `reject` or `fail`, or which have no ledger row, stay pending.
Concretely, a ledger `ok` row for "100" removes "100", while `reject`/`fail`
rows do not. -/
theorem claim_C8_resume_skips_ok :
    (∀ (stations : List String) (ledger : List LedgerRow) (c : String),
        c ∈ resume_pending stations ledger ↔
          (c ∈ stations ∧ ¬ ∃ row ∈ ledger, row.code = c ∧ row.status = Status.ok))
    ∧ resume_pending ["100", "200"] [⟨"100", .ok⟩, ⟨"300", .fail⟩] = ["200"]
    ∧ resume_pending ["100"] [⟨"100", .reject⟩, ⟨"100", .fail⟩] = ["100"] := by
  refine ⟨?_, by rfl, by rfl⟩
  intro stations ledger c
  unfold resume_pending completed_codes
  rw [List.mem_filter]
  constructor
  · rintro ⟨hc, hnc⟩
    refine ⟨hc, ?_⟩
    rintro ⟨row, hrow, hcode, hst⟩
    have : c ∈ (ledger.filter (fun r => r.status == Status.ok)).map (fun r => r.code) :=
      List.mem_map.mpr ⟨row, List.mem_filter.mpr ⟨hrow, by simp [hst]⟩, hcode⟩
    rw [Bool.not_eq_true'] at hnc
    exact absurd (List.elem_iff.mpr this) (by simp [List.contains] at hnc ⊢; exact hnc)
  · rintro ⟨hc, hno⟩
    refine ⟨hc, ?_⟩
    rw [Bool.not_eq_true']
    rw [show (((ledger.filter (fun r => r.status == Status.ok)).map (fun r => r.code)).contains c = false) ↔
        ¬ c ∈ ((ledger.filter (fun r => r.status == Status.ok)).map (fun r => r.code)) by
      rw [← List.elem_iff (a := c)]
      simp [List.contains]]
    intro hmem
    rcases List.mem_map.mp hmem with ⟨row, hrowf, hcode⟩
    rcases List.mem_filter.mp hrowf with ⟨hrow, hok⟩
    exact hno ⟨row, hrow, hcode, by simpa using hok⟩

end MeritExtract
